import Mathlib

/-!
Verification of the streaming batch-ingestion pipeline implemented in
`src/infrastructure/ingestion/ingestion.service.ts`.

Two complementary embeddings are used:

* a functional embedding (`sourceLoop`, `ingestSource`, `ingestAll`) of the
  data flow of `ingestSource` (lines 48-106), `saveBatch` (lines 108-121) and
  `ingestAll` (lines 32-46): which batches are dispatched to the repository,
  with which outcomes, and which log events are emitted;

* a small-step operational embedding (`Step`) of the consumer loop together
  with the `pendingSaves` array and its flush points (`flushPending`,
  lines 123-126), in which the resolution of an in-flight write is an
  environment step that may interleave with the loop at its suspension
  points.  This embedding settles the scheduling and backpressure claims.

External collaborators (HTTP byte stream, `stream-json` parser, repository,
logger) are modelled through the interfaces the service uses: the parsed
element sequence is a finite list, the per-element mapper outcome is part of
the input (a returned JS value, or a thrown error), the repository is an
oracle assigning an outcome to each `saveAll` call, and logging is a pure
event list.
-/

namespace Ingestion

/-- Batch size constant (`IngestionService.BATCH_SIZE`, line 19). -/
def BATCH_SIZE : ℕ := 5000

/-- Concurrency ceiling (`IngestionService.MAX_CONCURRENT_BATCHES`, line 20). -/
def MAX_CONCURRENT_BATCHES : ℕ := 3

/-- A JavaScript runtime value, as far as truthiness is concerned.
`mapper.map` is declared as returning `UnifiedData` but the service
defensively handles arbitrary outputs (lines 78-83), so the model keeps the
full JS value space: `null`, `undefined`, booleans, numbers (with `NaN`
kept separate), strings and objects. -/
inductive JSValue : Type where
  | vNull
  | vUndefined
  | vBool (b : Bool)
  | vNum (q : ℚ)
  | vNaN
  | vStr (s : String)
  | vObj (id : ℕ)
deriving DecidableEq

/-- JavaScript truthiness, as used by the skip test `if (!mapped) continue`
(line 83): `null`, `undefined`, `false`, `0`, `NaN` and the empty string are
falsy; every other value (in particular every object) is truthy. -/
def truthy : JSValue → Bool
  | JSValue.vNull => false
  | JSValue.vUndefined => false
  | JSValue.vBool b => b
  | JSValue.vNum q => decide (q ≠ 0)
  | JSValue.vNaN => false
  | JSValue.vStr s => decide (s ≠ "")
  | JSValue.vObj _ => true

/-- A thrown JavaScript value: either a proper `Error` (the
`error instanceof Error` branch of the catch blocks) or any other thrown
value (the `String(error)` branch). -/
inductive JSErr : Type where
  | jsError (msg : String)
  | nonError (v : JSValue)
deriving DecidableEq

/-- Log events emitted by the service (structured rather than raw strings). -/
inductive LogEvent : Type where
  | startedSource (name : String)
  | finishedSource (name : String)
  | failedSource (name : String)
  | streamError (name : String) (msg : String)
  | savedBatch (n : ℕ)
  | failedBatch (e : JSErr)
deriving DecidableEq

/-- `saveBatch` (lines 108-121): an empty batch returns immediately without
touching the repository; otherwise `repository.saveAll` is awaited inside
`try`/`catch`, and both a rejection with an `Error` and a rejection with any
other value are caught and logged.  The value is the list of emitted log
events; the `Except` layer records whether the returned promise rejects. -/
def saveBatch (batch : List JSValue) (saveAllResult : Except JSErr Unit) :
    Except JSErr (List LogEvent) :=
  if batch.length = 0 then Except.ok []
  else
    match saveAllResult with
    | Except.ok _ => Except.ok [LogEvent.savedBatch batch.length]
    | Except.error e => Except.ok [LogEvent.failedBatch e]

/-- Outcome of applying a source's mapper to one parsed element: the returned
JS value, or a thrown error (which aborts the `for await` loop body). -/
inductive MapResult : Type where
  | mapped (v : JSValue)
  | thrown (e : JSErr)
deriving DecidableEq

/-- An ingestion source together with its runtime behaviour: the `name` and
`url` fields of `IngestionSource`, an optional transport-level error reported
to the `pipeline` callback (lines 61-75), and the mapper outcome for each
element of the parsed array. -/
structure IngestionSource : Type where
  name : String
  url : String
  streamErr : Option String
  items : List MapResult
deriving DecidableEq

/-- One dispatched batch write: the batch passed to `saveBatch` together with
the result of that call. -/
structure SaveRec : Type where
  batch : List JSValue
  result : Except JSErr (List LogEvent)

/-- The `for await` consumer loop of `ingestSource` (lines 77-100), with the
repository modelled as an oracle `repo` giving the `saveAll` outcome of the
`k`-th dispatched write.  Returns the dispatched writes in dispatch order,
and `some e` when the loop was aborted by a thrown mapper error (in which
case the trailing partial batch is not flushed).  The `flushPending` awaits
(lines 91-93 and line 102) do not change which batches are dispatched, so
they are invisible at this level; they are modelled by the operational
semantics below. -/
def sourceLoop (B : ℕ) (repo : ℕ → Except JSErr Unit) :
    List MapResult → List JSValue → ℕ → List SaveRec → List SaveRec × Option JSErr
  | [], batch, k, acc =>
      (if 0 < batch.length then acc ++ [⟨batch, saveBatch batch (repo k)⟩] else acc, none)
  | MapResult.thrown e :: _, _, _, acc => (acc, some e)
  | MapResult.mapped v :: rest, batch, k, acc =>
      if truthy v then
        if B ≤ (batch ++ [v]).length then
          sourceLoop B repo rest ((batch ++ [v]).drop B) (k + 1)
            (acc ++ [⟨(batch ++ [v]).take B, saveBatch ((batch ++ [v]).take B) (repo k)⟩])
        else sourceLoop B repo rest (batch ++ [v]) k acc
      else sourceLoop B repo rest batch k acc

/-- All writes dispatched while ingesting `items`. -/
def sourceSaves (B : ℕ) (repo : ℕ → Except JSErr Unit) (items : List MapResult) :
    List SaveRec :=
  (sourceLoop B repo items [] 0 []).1

/-- The batches handed to the repository writer, in dispatch order. -/
def submittedBatches (B : ℕ) (repo : ℕ → Except JSErr Unit) (items : List MapResult) :
    List (List JSValue) :=
  (sourceSaves B repo items).map (fun r => r.batch)

/-- The arguments of the actual `repository.saveAll` invocations: `saveBatch`
calls `saveAll` exactly when its batch is non-empty (lines 109-112). -/
def saveAllArgs (saves : List SaveRec) : List (List JSValue) :=
  (saves.map (fun r => r.batch)).filter (fun b => decide (0 < b.length))

/-- Element sequence of a source whose mapper is the total function `f`
(no element makes the mapper throw). -/
def mappedItems {α : Type} (f : α → JSValue) (elems : List α) : List MapResult :=
  elems.map (fun v => MapResult.mapped (f v))

/-- Result of running `ingestSource` on one source. -/
structure SourceRun : Type where
  saves : List SaveRec
  failed : Option JSErr
  logs : List LogEvent

/-- `ingestSource` (lines 48-106): runs the consumer loop; the `pipeline`
error callback (lines 61-75) only logs a transport error and does nothing
else, and the completion log (line 105) is emitted only when the loop
finished without a mapper error. -/
def ingestSource (B : ℕ) (repo : ℕ → Except JSErr Unit) (src : IngestionSource) :
    SourceRun :=
  let r := sourceLoop B repo src.items [] 0 []
  ⟨r.1,
   r.2,
   [LogEvent.startedSource src.name]
     ++ (match src.streamErr with
         | some m => [LogEvent.streamError src.name m]
         | none => [])
     ++ (r.1.map (fun s =>
         match s.result with
         | Except.ok l => l
         | Except.error _ => [])).flatten
     ++ (match r.2 with
         | none => [LogEvent.finishedSource src.name]
         | some _ => [])⟩

/-- `ingestAll` (lines 32-46): registered sources are processed sequentially
in registration order; a source whose ingestion rejects is caught and logged
by name, and processing continues with the next source.  `repos i` is the
repository oracle seen by the `i`-th source. -/
def ingestAll (B : ℕ) (repos : ℕ → ℕ → Except JSErr Unit) :
    List IngestionSource → List SourceRun × List LogEvent
  | [] => ([], [])
  | src :: rest =>
      let run := ingestSource B (repos 0) src
      let r := ingestAll B (fun i => repos (i + 1)) rest
      (run :: r.1,
       run.logs
         ++ (match run.failed with
             | some _ => [LogEvent.failedSource src.name]
             | none => [])
         ++ r.2)

/-- Greedy left-to-right chunking into pieces of size `B` (the last piece may
be shorter): the mathematical description of the batching policy. -/
def chunksOf {α : Type} (B : ℕ) : List α → List (List α)
  | [] => []
  | a :: t =>
      if _h : 0 < B then (a :: t).take B :: chunksOf B ((a :: t).drop B) else []
termination_by l => l.length
decreasing_by
  simp only [List.length_drop, List.length_cons]
  omega

/-- One parsed element as seen by the consumer loop: the mapper returned a
falsy value (line 83 `continue`), returned a truthy record `r`, or threw. -/
inductive SElem (α : Type) : Type where
  | skip
  | record (r : α)
  | raiseErr
deriving DecidableEq

/-- Control location inside `ingestSource`. -/
inductive PC : Type where
  | consume      -- at the head of the `for await` loop (line 77)
  | throttling   -- suspended in `await flushPending` inside the loop (line 92)
  | finalFlush   -- after the loop, at the trailing-batch flush (line 98)
  | draining     -- suspended in the final `await flushPending` (line 102)
  | doneOk       -- `ingestSource` resolved normally (line 105)
  | failed       -- `ingestSource` rejected: a mapper error aborted the loop
deriving DecidableEq

/-- State of one source's ingestion: remaining elements, the `batch` buffer,
the `pendingSaves` array (each entry a dispatched batch paired with a flag
telling whether its write has already resolved), and the control location. -/
structure St (α : Type) : Type where
  inp : List (SElem α)
  buf : List α
  pend : List (List α × Bool)
  pc : PC
deriving DecidableEq

/-- Number of dispatched-but-unresolved writes in a `pendingSaves` list. -/
def unresolvedCount {α : Type} (p : List (List α × Bool)) : ℕ :=
  (p.filter (fun w => !w.2)).length

/-- Small-step semantics of the consumer loop (lines 77-106) with batch size
`B` and ceiling `C`.  The loop body runs synchronously between suspension
points, so one loop iteration is one step; `resolveW` is the environment
resolving the `i`-th in-flight write (success or failure — `saveBatch` never
rejects, so resolution is a single flag), which may interleave anywhere.
`throttleDone` and `drainDone` are the `await flushPending` returns: they
require every entry of `pendingSaves` to have resolved (`Promise.allSettled`)
and then empty the array (`pending.length = 0`).  A thrown mapper error
aborts the loop and rejects `ingestSource` (`raiseStep`); no draining
happens on that path. -/
inductive Step {α : Type} (B C : ℕ) : St α → St α → Prop where
  | skipElem (rest : List (SElem α)) (buf : List α) (p : List (List α × Bool)) :
      Step B C ⟨SElem.skip :: rest, buf, p, PC.consume⟩ ⟨rest, buf, p, PC.consume⟩
  | push (r : α) (rest : List (SElem α)) (buf : List α) (p : List (List α × Bool))
      (h : buf.length + 1 < B) :
      Step B C ⟨SElem.record r :: rest, buf, p, PC.consume⟩
        ⟨rest, buf ++ [r], p, PC.consume⟩
  | dispatch (r : α) (rest : List (SElem α)) (buf : List α) (p : List (List α × Bool))
      (hb : B ≤ buf.length + 1) (hp : p.length + 1 < C) :
      Step B C ⟨SElem.record r :: rest, buf, p, PC.consume⟩
        ⟨rest, (buf ++ [r]).drop B, p ++ [((buf ++ [r]).take B, false)], PC.consume⟩
  | dispatchFull (r : α) (rest : List (SElem α)) (buf : List α) (p : List (List α × Bool))
      (hb : B ≤ buf.length + 1) (hp : C ≤ p.length + 1) :
      Step B C ⟨SElem.record r :: rest, buf, p, PC.consume⟩
        ⟨rest, (buf ++ [r]).drop B, p ++ [((buf ++ [r]).take B, false)], PC.throttling⟩
  | raiseStep (rest : List (SElem α)) (buf : List α) (p : List (List α × Bool)) :
      Step B C ⟨SElem.raiseErr :: rest, buf, p, PC.consume⟩ ⟨rest, buf, p, PC.failed⟩
  | throttleDone (inp : List (SElem α)) (buf : List α) (p : List (List α × Bool))
      (h : ∀ w ∈ p, w.2 = true) :
      Step B C ⟨inp, buf, p, PC.throttling⟩ ⟨inp, buf, [], PC.consume⟩
  | loopEnd (buf : List α) (p : List (List α × Bool)) :
      Step B C ⟨[], buf, p, PC.consume⟩ ⟨[], buf, p, PC.finalFlush⟩
  | finalDispatch (b : α) (bs : List α) (p : List (List α × Bool)) :
      Step B C ⟨[], b :: bs, p, PC.finalFlush⟩
        ⟨[], [], p ++ [(b :: bs, false)], PC.draining⟩
  | finalEmpty (p : List (List α × Bool)) :
      Step B C ⟨[], [], p, PC.finalFlush⟩ ⟨[], [], p, PC.draining⟩
  | drainDone (inp : List (SElem α)) (buf : List α) (p : List (List α × Bool))
      (h : ∀ w ∈ p, w.2 = true) :
      Step B C ⟨inp, buf, p, PC.draining⟩ ⟨inp, buf, [], PC.doneOk⟩
  | resolveW (inp : List (SElem α)) (buf : List α) (p : List (List α × Bool)) (c : PC)
      (i : ℕ) (hi : i < p.length) (hw : (p.get ⟨i, hi⟩).2 = false) :
      Step B C ⟨inp, buf, p, c⟩ ⟨inp, buf, p.set i ((p.get ⟨i, hi⟩).1, true), c⟩

/-- Reachability under pipeline and environment steps. -/
def Reach {α : Type} (B C : ℕ) : St α → St α → Prop :=
  Relation.ReflTransGen (Step B C)

/-- Initial state of `ingestSource` on element sequence `inp`. -/
def initSt {α : Type} (inp : List (SElem α)) : St α :=
  ⟨inp, [], [], PC.consume⟩

/-- Size/location invariant of the `pendingSaves` array. -/
def Inv {α : Type} (C : ℕ) (s : St α) : Prop :=
  s.pend.length ≤ C ∧
    ((s.pc = PC.consume ∨ s.pc = PC.finalFlush) → s.pend.length < C)

/-- A reachable state in which the consumer is suspended in `flushPending`
although only one of the three registered writes is still unresolved. -/
def blockedSt : St Unit :=
  ⟨[], [],
   [(List.replicate 5000 (), true), (List.replicate 5000 (), true),
    (List.replicate 5000 (), false)],
   PC.throttling⟩

/-- A rejected source run that left a dispatched write unresolved. -/
def failedSt : St Unit :=
  ⟨[], [], [(List.replicate 5000 (), false)], PC.failed⟩

theorem chunksOf_nil {α : Type} (B : ℕ) : chunksOf B ([] : List α) = [] := by
  rw [chunksOf]

theorem chunksOf_eq_cons {α : Type} (B : ℕ) (hB : 0 < B) (l : List α) (hl : l ≠ []) :
    chunksOf B l = l.take B :: chunksOf B (l.drop B) := by
  cases l with
  | nil => exact absurd rfl hl
  | cons a t => rw [chunksOf]; rw [dif_pos hB]

theorem chunksOf_ne_nil {α : Type} (B : ℕ) (hB : 0 < B) (l : List α) (hl : l ≠ []) :
    chunksOf B l ≠ [] := by
  rw [chunksOf_eq_cons B hB l hl]
  exact List.cons_ne_nil _ _

theorem dropLast_cons_ne {α : Type} (a : α) (l : List α) (h : l ≠ []) :
    (a :: l).dropLast = a :: l.dropLast := by
  cases l with
  | nil => exact absurd rfl h
  | cons b t => rfl

theorem mem_dropLast_mem {α : Type} :
    ∀ (l : List α) (x : α), x ∈ l.dropLast → x ∈ l
  | [], _, h => by simp at h
  | [a], _, h => by simp at h
  | a :: b :: t, x, h => by
      rw [dropLast_cons_ne a (b :: t) (List.cons_ne_nil _ _)] at h
      rcases List.mem_cons.mp h with h | h
      · exact h ▸ List.mem_cons_self a (b :: t)
      · exact List.mem_cons_of_mem a (mem_dropLast_mem (b :: t) x h)

theorem chunksOf_spec {α : Type} (B : ℕ) (hB : 0 < B) :
    ∀ (n : ℕ) (l : List α), l.length ≤ n →
      (chunksOf B l).flatten = l
      ∧ (∀ c ∈ chunksOf B l, 0 < c.length ∧ c.length ≤ B)
      ∧ (∀ c ∈ (chunksOf B l).dropLast, c.length = B) := by
  intro n
  induction n with
  | zero =>
      intro l hl
      have h0 : l = [] := List.eq_nil_of_length_eq_zero (Nat.le_zero.mp hl)
      subst h0
      simp [chunksOf_nil]
  | succ n ih =>
      intro l hl
      by_cases hnil : l = []
      · subst hnil; simp [chunksOf_nil]
      · have hlen : 0 < l.length := List.length_pos.mpr hnil
        have hdrop : (l.drop B).length ≤ n := by
          simp only [List.length_drop]; omega
        obtain ⟨ihf, ihs, ihd⟩ := ih (l.drop B) hdrop
        rw [chunksOf_eq_cons B hB l hnil]
        refine ⟨?_, ?_, ?_⟩
        · rw [List.flatten_cons, ihf, List.take_append_drop]
        · intro c hc
          rcases List.mem_cons.mp hc with h | h
          · subst h
            simp only [List.length_take]
            omega
          · exact ihs c h
        · by_cases hd : chunksOf B (l.drop B) = []
          · rw [hd]
            intro c hc
            simp at hc
          · rw [dropLast_cons_ne _ _ hd]
            intro c hc
            rcases List.mem_cons.mp hc with h | h
            · subst h
              have hne : l.drop B ≠ [] := by
                intro h0
                exact hd (h0 ▸ chunksOf_nil B)
              have hBl : B < l.length := by
                by_contra hc2
                exact hne (List.drop_eq_nil_iff.mpr (by omega))
              simp only [List.length_take]
              omega
            · exact ihd c h

theorem chunksOf_last {α : Type} (B : ℕ) (hB : 0 < B) :
    ∀ (n : ℕ) (l : List α), l.length ≤ n → l ≠ [] →
      ∃ cs c, chunksOf B l = cs ++ [c]
        ∧ (∀ d ∈ cs, d.length = B)
        ∧ 0 < c.length ∧ c.length ≤ B
        ∧ l.length = B * cs.length + c.length := by
  intro n
  induction n with
  | zero =>
      intro l hl hnil
      exact absurd (List.eq_nil_of_length_eq_zero (Nat.le_zero.mp hl)) hnil
  | succ n ih =>
      intro l hl hnil
      have hlen : 0 < l.length := List.length_pos.mpr hnil
      rw [chunksOf_eq_cons B hB l hnil]
      by_cases hd : l.drop B = []
      · have hle : l.length ≤ B := List.drop_eq_nil_iff.mp hd
        refine ⟨[], l.take B, ?_, ?_, ?_, ?_, ?_⟩
        · rw [hd, chunksOf_nil, List.nil_append]
        · intro d hdm; simp at hdm
        · rw [List.take_of_length_le hle]; exact hlen
        · rw [List.take_of_length_le hle]; exact hle
        · rw [List.take_of_length_le hle]; simp
      · have hBl : B < l.length := by
          by_contra hc2
          exact hd (List.drop_eq_nil_iff.mpr (by omega))
        have hdrop : (l.drop B).length ≤ n := by
          simp only [List.length_drop]; omega
        obtain ⟨cs, c, heq, hfull, hpos, hle, hsum⟩ := ih (l.drop B) hdrop hd
        refine ⟨l.take B :: cs, c, ?_, ?_, hpos, hle, ?_⟩
        · rw [heq]; rfl
        · intro d hdm
          rcases List.mem_cons.mp hdm with h | h
          · subst h; simp only [List.length_take]; omega
          · exact hfull d h
        · simp only [List.length_drop] at hsum
          simp only [List.length_cons, Nat.mul_succ]
          omega

theorem sourceLoop_mapped_spec {α : Type} (B : ℕ) (hB : 0 < B)
    (repo : ℕ → Except JSErr Unit) (f : α → JSValue) :
    ∀ (elems : List α) (batch : List JSValue) (k : ℕ) (acc : List SaveRec),
      batch.length < B →
      ∃ t : List SaveRec,
        sourceLoop B repo (mappedItems f elems) batch k acc = (acc ++ t, none)
        ∧ t.map (fun r => r.batch) = chunksOf B (batch ++ (elems.map f).filter truthy)
        ∧ ∀ (j : ℕ) (hj : j < t.length),
            (t.get ⟨j, hj⟩).result = saveBatch ((t.get ⟨j, hj⟩).batch) (repo (k + j)) := by
  intro elems
  induction elems with
  | nil =>
      intro batch k acc hlt
      by_cases h0 : 0 < batch.length
      · refine ⟨[⟨batch, saveBatch batch (repo k)⟩], ?_, ?_, ?_⟩
        · simp [mappedItems, sourceLoop, h0]
        · have hbn : batch ≠ [] := by
            intro h; rw [h] at h0; simp at h0
          have h1 : chunksOf B (batch ++ (([] : List α).map f).filter truthy) =
              chunksOf B batch := by simp
          rw [h1, chunksOf_eq_cons B hB batch hbn,
            List.take_of_length_le (Nat.le_of_lt hlt),
            List.drop_eq_nil_iff.mpr (Nat.le_of_lt hlt), chunksOf_nil]
          rfl
        · intro j hj
          cases j with
          | zero => rfl
          | succ j => simp at hj
      · have hb0 : batch = [] :=
          List.eq_nil_of_length_eq_zero (by omega)
        subst hb0
        refine ⟨[], ?_, ?_, ?_⟩
        · simp [mappedItems, sourceLoop]
        · simp [chunksOf_nil]
        · intro j hj; simp at hj
  | cons v rest ih =>
      intro batch k acc hlt
      by_cases ht : truthy (f v)
      · by_cases hfull : B ≤ (batch ++ [f v]).length
        · have hlen : (batch ++ [f v]).length = B := by
            simp only [List.length_append, List.length_singleton] at hfull ⊢
            omega
          have htake : (batch ++ [f v]).take B = batch ++ [f v] :=
            List.take_of_length_le (le_of_eq hlen)
          have hdrop : (batch ++ [f v]).drop B = [] :=
            List.drop_eq_nil_iff.mpr (le_of_eq hlen)
          obtain ⟨t, heq, hmap, hres⟩ :=
            ih [] (k + 1)
              (acc ++ [⟨batch ++ [f v], saveBatch (batch ++ [f v]) (repo k)⟩]) hB
          refine ⟨⟨batch ++ [f v], saveBatch (batch ++ [f v]) (repo k)⟩ :: t, ?_, ?_, ?_⟩
          · show sourceLoop B repo
              (MapResult.mapped (f v) :: mappedItems f rest) batch k acc = _
            rw [sourceLoop, if_pos ht, if_pos hfull, htake, hdrop, heq]
            rw [List.append_cons acc _ t]
          · have hfil : ((v :: rest).map f).filter truthy =
                f v :: (rest.map f).filter truthy := by
              simp [List.filter_cons, ht]
            have hcat : batch ++ ((v :: rest).map f).filter truthy =
                (batch ++ [f v]) ++ (rest.map f).filter truthy := by
              rw [hfil, List.append_assoc]; rfl
            rw [hcat, chunksOf_eq_cons B hB _
              (by simp)]
            have htake2 : ((batch ++ [f v]) ++ (rest.map f).filter truthy).take B =
                batch ++ [f v] := by
              have := List.take_left (batch ++ [f v]) ((rest.map f).filter truthy)
              rwa [hlen] at this
            have hdrop2 : ((batch ++ [f v]) ++ (rest.map f).filter truthy).drop B =
                (rest.map f).filter truthy := by
              have := List.drop_left (batch ++ [f v]) ((rest.map f).filter truthy)
              rwa [hlen] at this
            rw [htake2, hdrop2, List.map_cons, hmap]
            simp
          · intro j hj
            cases j with
            | zero => simp
            | succ j =>
                have hj2 : j < t.length := by simpa using hj
                have := hres j hj2
                have hadd : k + 1 + j = k + (j + 1) := by omega
                rw [hadd] at this
                simpa using this
        · have hlt2 : (batch ++ [f v]).length < B := by omega
          obtain ⟨t, heq, hmap, hres⟩ := ih (batch ++ [f v]) k acc hlt2
          refine ⟨t, ?_, ?_, hres⟩
          · show sourceLoop B repo
              (MapResult.mapped (f v) :: mappedItems f rest) batch k acc = _
            rw [sourceLoop, if_pos ht, if_neg hfull, heq]
          · have hfil : ((v :: rest).map f).filter truthy =
                f v :: (rest.map f).filter truthy := by
              simp [List.filter_cons, ht]
            rw [hmap, hfil, List.append_assoc]
            rfl
      · obtain ⟨t, heq, hmap, hres⟩ := ih batch k acc hlt
        refine ⟨t, ?_, ?_, hres⟩
        · show sourceLoop B repo
            (MapResult.mapped (f v) :: mappedItems f rest) batch k acc = _
          rw [sourceLoop, if_neg ht, heq]
        · have hfil : ((v :: rest).map f).filter truthy =
              (rest.map f).filter truthy := by
            simp [List.filter_cons, ht]
          rw [hmap, hfil]

theorem saveBatch_isOk (b : List JSValue) (r : Except JSErr Unit) :
    ∃ l, saveBatch b r = Except.ok l := by
  unfold saveBatch
  by_cases h : b.length = 0
  · exact ⟨[], by rw [if_pos h]⟩
  · rw [if_neg h]
    cases r with
    | ok u => exact ⟨_, rfl⟩
    | error e => exact ⟨_, rfl⟩

theorem sourceLoop_results_ok (B : ℕ) (repo : ℕ → Except JSErr Unit) :
    ∀ (items : List MapResult) (batch : List JSValue) (k : ℕ) (acc : List SaveRec),
      (∀ rcd ∈ acc, ∃ l, rcd.result = Except.ok l) →
      ∀ rcd ∈ (sourceLoop B repo items batch k acc).1, ∃ l, rcd.result = Except.ok l := by
  intro items
  induction items with
  | nil =>
      intro batch k acc hacc rcd hrcd
      rw [sourceLoop] at hrcd
      by_cases h : 0 < batch.length
      · rw [if_pos h] at hrcd
        rcases List.mem_append.mp hrcd with h2 | h2
        · exact hacc rcd h2
        · rcases List.mem_singleton.mp h2 with rfl
          exact saveBatch_isOk _ _
      · rw [if_neg h] at hrcd
        exact hacc rcd hrcd
  | cons m rest ih =>
      intro batch k acc hacc rcd hrcd
      cases m with
      | thrown e => exact hacc rcd hrcd
      | mapped v =>
          rw [sourceLoop] at hrcd
          by_cases ht : truthy v
          · rw [if_pos ht] at hrcd
            by_cases hfull : B ≤ (batch ++ [v]).length
            · rw [if_pos hfull] at hrcd
              refine ih _ _ _ ?_ rcd hrcd
              intro rcd2 hrcd2
              rcases List.mem_append.mp hrcd2 with h2 | h2
              · exact hacc rcd2 h2
              · rcases List.mem_singleton.mp h2 with rfl
                exact saveBatch_isOk _ _
            · rw [if_neg hfull] at hrcd
              exact ih _ _ _ hacc rcd hrcd
          · rw [if_neg ht] at hrcd
            exact ih _ _ _ hacc rcd hrcd

theorem sourceSaves_mapped_eq {α : Type} (B : ℕ) (hB : 0 < B)
    (repo : ℕ → Except JSErr Unit) (f : α → JSValue) (elems : List α) :
    (sourceLoop B repo (mappedItems f elems) [] 0 []).2 = none
    ∧ (sourceSaves B repo (mappedItems f elems)).map (fun r => r.batch)
        = chunksOf B ((elems.map f).filter truthy)
    ∧ ∀ (j : ℕ) (hj : j < (sourceSaves B repo (mappedItems f elems)).length),
        ((sourceSaves B repo (mappedItems f elems)).get ⟨j, hj⟩).result
          = saveBatch (((sourceSaves B repo (mappedItems f elems)).get ⟨j, hj⟩).batch)
              (repo j) := by
  obtain ⟨t, heq, hmap, hres⟩ := sourceLoop_mapped_spec B hB repo f elems [] 0 [] hB
  have hsaves : sourceSaves B repo (mappedItems f elems) = t := by
    unfold sourceSaves
    rw [heq]
    rfl
  subst hsaves
  refine ⟨?_, ?_, ?_⟩
  · rw [heq]
  · simpa using hmap
  · intro j hj
    simpa using hres j hj

theorem submittedBatches_eq_chunks {α : Type} (B : ℕ) (hB : 0 < B)
    (repo : ℕ → Except JSErr Unit) (f : α → JSValue) (elems : List α) :
    submittedBatches B repo (mappedItems f elems)
      = chunksOf B ((elems.map f).filter truthy) := by
  obtain ⟨-, hmap, -⟩ := sourceSaves_mapped_eq B hB repo f elems
  unfold submittedBatches
  rw [hmap]

/-- C1: over a full (no-throw) source run, the multiset and order of records
handed to the repository writer is exactly the sequence of non-skip
(truthy) mapper outputs, partitioned in order into consecutive batches of
size at most `BATCH_SIZE`, every batch except possibly the last being
exactly full, with exactly one undersized final batch when the number of
non-skip outputs is not a multiple of `BATCH_SIZE` (and only full batches
when it is). -/
theorem ingest_batches_partition {α : Type} (f : α → JSValue) (elems : List α)
    (repo : ℕ → Except JSErr Unit) :
    (submittedBatches BATCH_SIZE repo (mappedItems f elems)).flatten
        = (elems.map f).filter truthy
    ∧ (∀ b ∈ submittedBatches BATCH_SIZE repo (mappedItems f elems),
        0 < b.length ∧ b.length ≤ BATCH_SIZE)
    ∧ (∀ b ∈ (submittedBatches BATCH_SIZE repo (mappedItems f elems)).dropLast,
        b.length = BATCH_SIZE)
    ∧ (¬ BATCH_SIZE ∣ ((elems.map f).filter truthy).length →
        ∃ cs c, submittedBatches BATCH_SIZE repo (mappedItems f elems) = cs ++ [c]
          ∧ (∀ d ∈ cs, d.length = BATCH_SIZE)
          ∧ 0 < c.length ∧ c.length < BATCH_SIZE)
    ∧ (BATCH_SIZE ∣ ((elems.map f).filter truthy).length →
        ∀ b ∈ submittedBatches BATCH_SIZE repo (mappedItems f elems),
          b.length = BATCH_SIZE) := by
  have hB : 0 < BATCH_SIZE := by norm_num [BATCH_SIZE]
  have hsub := submittedBatches_eq_chunks BATCH_SIZE hB repo f elems
  obtain ⟨hflat, hsizes, hdrop⟩ :=
    chunksOf_spec BATCH_SIZE hB ((elems.map f).filter truthy).length
      ((elems.map f).filter truthy) le_rfl
  refine ⟨?_, ?_, ?_, ?_, ?_⟩
  · rw [hsub]; exact hflat
  · rw [hsub]; exact hsizes
  · rw [hsub]; exact hdrop
  · intro hndvd
    have hne : (elems.map f).filter truthy ≠ [] := by
      intro h
      rw [h] at hndvd
      simp at hndvd
    obtain ⟨cs, c, hceq, hfull, hpos, hle, hsum⟩ :=
      chunksOf_last BATCH_SIZE hB ((elems.map f).filter truthy).length
        ((elems.map f).filter truthy) le_rfl hne
    refine ⟨cs, c, by rw [hsub]; exact hceq, hfull, hpos, ?_⟩
    rcases lt_or_eq_of_le hle with h | h
    · exact h
    · exfalso
      apply hndvd
      rw [hsum, h]
      exact ⟨cs.length + 1, by ring⟩
  · intro hdvd b hb
    rw [hsub] at hb
    by_cases hne : (elems.map f).filter truthy = []
    · rw [hne, chunksOf_nil] at hb
      simp at hb
    · obtain ⟨cs, c, hceq, hfull, hpos, hle, hsum⟩ :=
        chunksOf_last BATCH_SIZE hB ((elems.map f).filter truthy).length
          ((elems.map f).filter truthy) le_rfl hne
      obtain ⟨m, hm⟩ := hdvd
      have hdvd2 : BATCH_SIZE ∣ c.length := by
        have hcl : c.length = BATCH_SIZE * m - BATCH_SIZE * cs.length := by omega
        rw [hcl]
        exact Nat.dvd_sub' (dvd_mul_right _ _) (dvd_mul_right _ _)
      have hble : BATCH_SIZE ≤ c.length := Nat.le_of_dvd hpos hdvd2
      have hc : c.length = BATCH_SIZE := by omega
      rw [hceq] at hb
      rcases List.mem_append.mp hb with h | h
      · exact hfull b h
      · rcases List.mem_singleton.mp h with rfl
        exact hc

theorem ingest_batches_partition_witness :
    (¬ BATCH_SIZE ∣
        (([JSValue.vObj 0, JSValue.vObj 1, JSValue.vObj 2].map
          (fun v => v)).filter truthy).length)
    ∧ (submittedBatches BATCH_SIZE (fun _ => Except.ok ())
        (mappedItems (fun v => v)
          [JSValue.vObj 0, JSValue.vObj 1, JSValue.vObj 2])).flatten
        = ([JSValue.vObj 0, JSValue.vObj 1, JSValue.vObj 2].map
            (fun v => v)).filter truthy
    ∧ ∃ cs c,
        submittedBatches BATCH_SIZE (fun _ => Except.ok ())
          (mappedItems (fun v => v)
            [JSValue.vObj 0, JSValue.vObj 1, JSValue.vObj 2]) = cs ++ [c]
        ∧ (∀ d ∈ cs, d.length = BATCH_SIZE)
        ∧ 0 < c.length ∧ c.length < BATCH_SIZE := by
  have h := ingest_batches_partition (fun v => v)
    [JSValue.vObj 0, JSValue.vObj 1, JSValue.vObj 2] (fun _ => Except.ok ())
  exact ⟨by decide, h.1, h.2.2.2.1 (by decide)⟩

/-- C10: every falsy mapper return value (`null`, `undefined`, `false`, `0`,
`NaN`, the empty string) is treated as a skip by `if (!mapped) continue` —
the element contributes no record and raises no error — while every truthy
return value is pushed into the current batch as-is. -/
theorem falsy_mapper_outputs_skipped {α : Type} (f : α → JSValue) (elems : List α)
    (repo : ℕ → Except JSErr Unit) :
    (submittedBatches BATCH_SIZE repo (mappedItems f elems)).flatten
        = (elems.map f).filter truthy
    ∧ truthy JSValue.vNull = false
    ∧ truthy JSValue.vUndefined = false
    ∧ truthy (JSValue.vBool false) = false
    ∧ truthy (JSValue.vNum 0) = false
    ∧ truthy JSValue.vNaN = false
    ∧ truthy (JSValue.vStr "") = false
    ∧ (sourceLoop BATCH_SIZE repo (mappedItems f elems) [] 0 []).2 = none := by
  have hB : 0 < BATCH_SIZE := by norm_num [BATCH_SIZE]
  obtain ⟨hnone, hmap, -⟩ := sourceSaves_mapped_eq BATCH_SIZE hB repo f elems
  refine ⟨?_, rfl, rfl, rfl, by decide, rfl, by decide, hnone⟩
  rw [submittedBatches_eq_chunks BATCH_SIZE hB repo f elems]
  exact (chunksOf_spec BATCH_SIZE hB ((elems.map f).filter truthy).length
    ((elems.map f).filter truthy) le_rfl).1

theorem falsy_mapper_outputs_skipped_witness :
    (submittedBatches BATCH_SIZE (fun _ => Except.ok ())
      (mappedItems (fun v => v)
        [JSValue.vNull, JSValue.vObj 7, JSValue.vNum 0, JSValue.vStr "x",
         JSValue.vUndefined, JSValue.vBool false, JSValue.vNaN,
         JSValue.vStr ""])).flatten
      = [JSValue.vObj 7, JSValue.vStr "x"] := by
  have h := falsy_mapper_outputs_skipped (fun v => v)
    [JSValue.vNull, JSValue.vObj 7, JSValue.vNum 0, JSValue.vStr "x",
     JSValue.vUndefined, JSValue.vBool false, JSValue.vNaN, JSValue.vStr ""]
    (fun _ => Except.ok ())
  rw [h.1]
  decide

/-- C6: a repository rejection of batch `k` is caught at the batch boundary
and logged; that write resolves (fulfilled, observed-failed); which batches
are submitted does not depend on the repository outcomes at all — so batch
`k+1` and every other batch is submitted and resolved regardless — and the
`j`-th write's outcome depends only on the `j`-th `saveAll` outcome, so the
only consequence of a failing batch is losing that batch's data. -/
theorem batch_failure_isolated {α : Type} (f : α → JSValue) (elems : List α)
    (repo repo2 : ℕ → Except JSErr Unit) :
    submittedBatches BATCH_SIZE repo (mappedItems f elems)
        = submittedBatches BATCH_SIZE repo2 (mappedItems f elems)
    ∧ (∀ rcd ∈ sourceSaves BATCH_SIZE repo (mappedItems f elems),
        ∃ l, rcd.result = Except.ok l)
    ∧ (∀ (j : ℕ) (hj : j < (sourceSaves BATCH_SIZE repo (mappedItems f elems)).length),
        ((sourceSaves BATCH_SIZE repo (mappedItems f elems)).get ⟨j, hj⟩).result
          = saveBatch
              (((sourceSaves BATCH_SIZE repo (mappedItems f elems)).get ⟨j, hj⟩).batch)
              (repo j))
    ∧ (∀ (b : List JSValue) (e : JSErr), 0 < b.length →
        saveBatch b (Except.error e) = Except.ok [LogEvent.failedBatch e]) := by
  have hB : 0 < BATCH_SIZE := by norm_num [BATCH_SIZE]
  obtain ⟨-, -, hres⟩ := sourceSaves_mapped_eq BATCH_SIZE hB repo f elems
  refine ⟨?_, ?_, ?_, ?_⟩
  · rw [submittedBatches_eq_chunks BATCH_SIZE hB repo f elems,
      submittedBatches_eq_chunks BATCH_SIZE hB repo2 f elems]
  · intro rcd hrcd
    exact sourceLoop_results_ok BATCH_SIZE repo (mappedItems f elems) [] 0 []
      (by intro r hr; simp at hr) rcd hrcd
  · exact hres
  · intro b e hb
    unfold saveBatch
    rw [if_neg (by omega)]

theorem batch_failure_isolated_witness :
    submittedBatches BATCH_SIZE (fun _ => Except.error (JSErr.jsError "boom"))
        (mappedItems (fun v => v) [JSValue.vObj 0])
      = submittedBatches BATCH_SIZE (fun _ => Except.ok ())
          (mappedItems (fun v => v) [JSValue.vObj 0])
    ∧ saveBatch [JSValue.vObj 0] (Except.error (JSErr.jsError "boom"))
        = Except.ok [LogEvent.failedBatch (JSErr.jsError "boom")] := by
  have h := batch_failure_isolated (fun v => v) [JSValue.vObj 0]
    (fun _ => Except.error (JSErr.jsError "boom")) (fun _ => Except.ok ())
  exact ⟨h.1, h.2.2.2 [JSValue.vObj 0] (JSErr.jsError "boom") (by decide)⟩

/-- C9: `saveBatch`'s promise always fulfills and never rejects, for every
batch and every repository behaviour, including `saveAll` rejecting with an
`Error` or throwing a non-`Error` value; a batch-write failure is observable
only through the emitted log event, and the results drained by
`flushPending` are therefore all fulfilled. -/
theorem saveBatch_never_rejects :
    (∀ (batch : List JSValue) (r : Except JSErr Unit),
      ∃ l, saveBatch batch r = Except.ok l)
    ∧ (∀ (batch : List JSValue) (e : JSErr), 0 < batch.length →
        saveBatch batch (Except.error e) = Except.ok [LogEvent.failedBatch e])
    ∧ (∀ (repo : ℕ → Except JSErr Unit) (items : List MapResult),
        ∀ rcd ∈ sourceSaves BATCH_SIZE repo items, ∃ l, rcd.result = Except.ok l) := by
  refine ⟨saveBatch_isOk, ?_, ?_⟩
  · intro batch e hb
    unfold saveBatch
    rw [if_neg (by omega)]
  · intro repo items rcd hrcd
    exact sourceLoop_results_ok BATCH_SIZE repo items [] 0 []
      (by intro r hr; simp at hr) rcd hrcd

theorem saveBatch_never_rejects_witness :
    saveBatch [JSValue.vObj 0] (Except.error (JSErr.nonError (JSValue.vNum 42)))
      = Except.ok [LogEvent.failedBatch (JSErr.nonError (JSValue.vNum 42))] :=
  saveBatch_never_rejects.2.1 [JSValue.vObj 0]
    (JSErr.nonError (JSValue.vNum 42)) (by decide)

/-- C8: `repository.saveAll` is never invoked with an empty batch — the
dispatched batches (full mid-stream batches and the trailing partial batch
alike) are all non-empty and of length at most `BATCH_SIZE`, and the
`saveBatch` guard (line 109) filters nothing out because nothing empty is
ever submitted. -/
theorem saveAll_never_empty {α : Type} (f : α → JSValue) (elems : List α)
    (repo : ℕ → Except JSErr Unit) :
    saveAllArgs (sourceSaves BATCH_SIZE repo (mappedItems f elems))
        = submittedBatches BATCH_SIZE repo (mappedItems f elems)
    ∧ ∀ b ∈ saveAllArgs (sourceSaves BATCH_SIZE repo (mappedItems f elems)),
        0 < b.length ∧ b.length ≤ BATCH_SIZE := by
  have hB : 0 < BATCH_SIZE := by norm_num [BATCH_SIZE]
  have hsub := submittedBatches_eq_chunks BATCH_SIZE hB repo f elems
  have hsizes := (chunksOf_spec BATCH_SIZE hB ((elems.map f).filter truthy).length
    ((elems.map f).filter truthy) le_rfl).2.1
  have heq : saveAllArgs (sourceSaves BATCH_SIZE repo (mappedItems f elems))
      = submittedBatches BATCH_SIZE repo (mappedItems f elems) := by
    unfold saveAllArgs
    have : (sourceSaves BATCH_SIZE repo (mappedItems f elems)).map (fun r => r.batch)
        = submittedBatches BATCH_SIZE repo (mappedItems f elems) := rfl
    rw [this]
    apply List.filter_eq_self.mpr
    intro b hb
    rw [hsub] at hb
    exact decide_eq_true (hsizes b hb).1
  refine ⟨heq, ?_⟩
  intro b hb
  rw [heq, hsub] at hb
  exact hsizes b hb

theorem saveAll_never_empty_witness :
    saveAllArgs (sourceSaves BATCH_SIZE (fun _ => Except.ok ())
        (mappedItems (fun v => v) [JSValue.vObj 0, JSValue.vNull]))
      = submittedBatches BATCH_SIZE (fun _ => Except.ok ())
          (mappedItems (fun v => v) [JSValue.vObj 0, JSValue.vNull])
    ∧ (0 : ℕ) <
        ((submittedBatches BATCH_SIZE (fun _ => Except.ok ())
          (mappedItems (fun v => v) [JSValue.vObj 0, JSValue.vNull])).flatten).length := by
  have h := saveAll_never_empty (fun v => v) [JSValue.vObj 0, JSValue.vNull]
    (fun _ => Except.ok ())
  exact ⟨h.1, by decide⟩

theorem sourceLoop_halt (B : ℕ) (repo : ℕ → Except JSErr Unit) :
    ∀ (pre : List MapResult) (e : JSErr) (post : List MapResult)
      (batch : List JSValue) (k : ℕ) (acc : List SaveRec),
      sourceLoop B repo (pre ++ MapResult.thrown e :: post) batch k acc
        = sourceLoop B repo (pre ++ [MapResult.thrown e]) batch k acc := by
  intro pre
  induction pre with
  | nil => intro e post batch k acc; rfl
  | cons m rest ih =>
      intro e post batch k acc
      cases m with
      | thrown e2 => rfl
      | mapped v =>
          rw [List.cons_append, List.cons_append, sourceLoop, sourceLoop]
          split_ifs with h1 h2
          · exact ih e post _ _ _
          · exact ih e post _ _ _
          · exact ih e post _ _ _

theorem ingestAll_length (B : ℕ) :
    ∀ (sources : List IngestionSource) (repos : ℕ → ℕ → Except JSErr Unit),
      ((ingestAll B repos sources).1).length = sources.length := by
  intro sources
  induction sources with
  | nil => intro repos; rfl
  | cons src rest ih =>
      intro repos
      show ((ingestSource B (repos 0) src :: (ingestAll B _ rest).1)).length = _
      rw [List.length_cons, ih (fun i => repos (i + 1))]
      rfl

theorem ingestAll_get (B : ℕ) :
    ∀ (sources : List IngestionSource) (repos : ℕ → ℕ → Except JSErr Unit)
      (i : ℕ) (hi : i < sources.length)
      (hi2 : i < ((ingestAll B repos sources).1).length),
      (ingestAll B repos sources).1.get ⟨i, hi2⟩
        = ingestSource B (repos i) (sources.get ⟨i, hi⟩) := by
  intro sources
  induction sources with
  | nil =>
      intro repos i hi hi2
      simp at hi
  | cons src rest ih =>
      intro repos i hi hi2
      cases i with
      | zero => rfl
      | succ i =>
          have hi' : i < rest.length := by simpa using hi
          have hi2' : i < ((ingestAll B (fun j => repos (j + 1)) rest).1).length := by
            rw [ingestAll_length]
            exact hi'
          exact ih (fun j => repos (j + 1)) i hi' hi2'

theorem ingestAll_failed_logged (B : ℕ) :
    ∀ (sources : List IngestionSource) (repos : ℕ → ℕ → Except JSErr Unit)
      (i : ℕ) (hi : i < sources.length) (e : JSErr),
      (ingestSource B (repos i) (sources.get ⟨i, hi⟩)).failed = some e →
      LogEvent.failedSource (sources.get ⟨i, hi⟩).name ∈ (ingestAll B repos sources).2 := by
  intro sources
  induction sources with
  | nil =>
      intro repos i hi
      simp at hi
  | cons src rest ih =>
      intro repos i hi e hfail
      cases i with
      | zero =>
          have hfail2 : (ingestSource B (repos 0) src).failed = some e := hfail
          show LogEvent.failedSource src.name ∈
            (ingestSource B (repos 0) src).logs
              ++ (match (ingestSource B (repos 0) src).failed with
                  | some _ => [LogEvent.failedSource src.name]
                  | none => [])
              ++ (ingestAll B (fun j => repos (j + 1)) rest).2
          rw [hfail2]
          simp
      | succ i =>
          have hi' : i < rest.length := by simpa using hi
          have hmem := ih (fun j => repos (j + 1)) i hi' e hfail
          show LogEvent.failedSource ((src :: rest).get ⟨i + 1, hi⟩).name ∈
            (ingestSource B (repos 0) src).logs
              ++ (match (ingestSource B (repos 0) src).failed with
                  | some _ => [LogEvent.failedSource src.name]
                  | none => [])
              ++ (ingestAll B (fun j => repos (j + 1)) rest).2
          exact List.mem_append.mpr (Or.inr hmem)

/-- C5: `ingestAll` processes the registered sources sequentially in
registration order — the `i`-th entry of the run is exactly the standalone
ingestion of the `i`-th source, independent of every other source — an error
raised while processing one source (for instance a mapper throwing at element
`i`, which halts that source's loop at that element) is caught and logged
with the failing source's name, every later source's result is unaffected,
and `ingestAll` itself is a total function that never fails. -/
theorem ingestAll_source_isolation (repos : ℕ → ℕ → Except JSErr Unit)
    (sources : List IngestionSource) :
    ((ingestAll BATCH_SIZE repos sources).1).length = sources.length
    ∧ (∀ (i : ℕ) (hi : i < sources.length)
        (hi2 : i < ((ingestAll BATCH_SIZE repos sources).1).length),
        (ingestAll BATCH_SIZE repos sources).1.get ⟨i, hi2⟩
          = ingestSource BATCH_SIZE (repos i) (sources.get ⟨i, hi⟩))
    ∧ (∀ (i : ℕ) (hi : i < sources.length) (e : JSErr),
        (ingestSource BATCH_SIZE (repos i) (sources.get ⟨i, hi⟩)).failed = some e →
        LogEvent.failedSource (sources.get ⟨i, hi⟩).name
          ∈ (ingestAll BATCH_SIZE repos sources).2)
    ∧ (∀ (repo : ℕ → Except JSErr Unit) (pre : List MapResult) (e : JSErr)
        (post : List MapResult) (batch : List JSValue) (k : ℕ) (acc : List SaveRec),
        sourceLoop BATCH_SIZE repo (pre ++ MapResult.thrown e :: post) batch k acc
          = sourceLoop BATCH_SIZE repo (pre ++ [MapResult.thrown e]) batch k acc) :=
  ⟨ingestAll_length BATCH_SIZE sources repos,
   ingestAll_get BATCH_SIZE sources repos,
   ingestAll_failed_logged BATCH_SIZE sources repos,
   sourceLoop_halt BATCH_SIZE⟩

theorem ingestAll_source_isolation_witness :
    ((ingestAll BATCH_SIZE (fun _ _ => Except.ok ())
      [⟨"A", "uA", none, [MapResult.thrown (JSErr.jsError "map crash")]⟩,
       ⟨"B", "uB", none, [MapResult.mapped (JSValue.vObj 1)]⟩]).1).length = 2
    ∧ LogEvent.failedSource "A"
        ∈ (ingestAll BATCH_SIZE (fun _ _ => Except.ok ())
          [⟨"A", "uA", none, [MapResult.thrown (JSErr.jsError "map crash")]⟩,
           ⟨"B", "uB", none, [MapResult.mapped (JSValue.vObj 1)]⟩]).2
    ∧ submittedBatches BATCH_SIZE (fun _ => Except.ok ())
        (mappedItems (fun v => v) [JSValue.vObj 1]) = [[JSValue.vObj 1]] := by
  have h := ingestAll_source_isolation (fun _ _ => Except.ok ())
    [⟨"A", "uA", none, [MapResult.thrown (JSErr.jsError "map crash")]⟩,
     ⟨"B", "uB", none, [MapResult.mapped (JSValue.vObj 1)]⟩]
  refine ⟨h.1, ?_, by decide⟩
  exact h.2.2.1 0 (by decide) (JSErr.jsError "map crash") (by decide)

/-- C7: a transport-level error reported by the byte stream is logged by the
`pipeline` callback but by itself neither changes which writes the
consumption loop dispatches nor whether the source fails; and on a stream
that completes (a full mapped element sequence), the run ends without
failure — exhaustion of the element sequence is the loop's only exit. -/
theorem stream_error_nonfatal {α : Type} (name url : String) (serr : Option String)
    (items : List MapResult) (repo : ℕ → Except JSErr Unit)
    (f : α → JSValue) (elems : List α) :
    (ingestSource BATCH_SIZE repo ⟨name, url, serr, items⟩).saves
        = (ingestSource BATCH_SIZE repo ⟨name, url, none, items⟩).saves
    ∧ (ingestSource BATCH_SIZE repo ⟨name, url, serr, items⟩).failed
        = (ingestSource BATCH_SIZE repo ⟨name, url, none, items⟩).failed
    ∧ (∀ m, serr = some m →
        LogEvent.streamError name m
          ∈ (ingestSource BATCH_SIZE repo ⟨name, url, serr, items⟩).logs)
    ∧ (ingestSource BATCH_SIZE repo ⟨name, url, serr, mappedItems f elems⟩).failed
        = none := by
  have hB : 0 < BATCH_SIZE := by norm_num [BATCH_SIZE]
  refine ⟨rfl, rfl, ?_, ?_⟩
  · intro m hm
    subst hm
    unfold ingestSource
    simp
  · obtain ⟨hnone, -, -⟩ := sourceSaves_mapped_eq BATCH_SIZE hB repo f elems
    unfold ingestSource
    exact hnone

theorem stream_error_nonfatal_witness :
    (ingestSource BATCH_SIZE (fun _ => Except.ok ())
        ⟨"S", "u", some "socket hang up", [MapResult.mapped (JSValue.vObj 3)]⟩).saves
      = (ingestSource BATCH_SIZE (fun _ => Except.ok ())
          ⟨"S", "u", none, [MapResult.mapped (JSValue.vObj 3)]⟩).saves
    ∧ LogEvent.streamError "S" "socket hang up"
        ∈ (ingestSource BATCH_SIZE (fun _ => Except.ok ())
          ⟨"S", "u", some "socket hang up", [MapResult.mapped (JSValue.vObj 3)]⟩).logs
    ∧ (ingestSource BATCH_SIZE (fun _ => Except.ok ())
        ⟨"S", "u", some "socket hang up",
          mappedItems (fun v => v) [JSValue.vObj 3]⟩).failed = none := by
  have h := stream_error_nonfatal "S" "u" (some "socket hang up")
    [MapResult.mapped (JSValue.vObj 3)] (fun _ => Except.ok ())
    (fun v => v) [JSValue.vObj 3]
  exact ⟨h.1, h.2.2.1 "socket hang up" rfl, h.2.2.2⟩

theorem unresolvedCount_le {α : Type} (p : List (List α × Bool)) :
    unresolvedCount p ≤ p.length :=
  List.length_filter_le _ _

theorem inv_step {α : Type} (B C : ℕ) (hC : 0 < C) (s s2 : St α)
    (h : Step B C s s2) (hs : Inv C s) : Inv C s2 := by
  cases h with
  | skipElem rest buf p => exact hs
  | push r rest buf p h => exact hs
  | dispatch r rest buf p hb hp =>
      refine ⟨?_, fun _ => ?_⟩
      · show (p ++ [((buf ++ [r]).take B, false)]).length ≤ C
        rw [List.length_append, List.length_singleton]
        omega
      · show (p ++ [((buf ++ [r]).take B, false)]).length < C
        rw [List.length_append, List.length_singleton]
        omega
  | dispatchFull r rest buf p hb hp =>
      have hlt : p.length < C := hs.2 (Or.inl rfl)
      refine ⟨?_, fun h2 => ?_⟩
      · show (p ++ [((buf ++ [r]).take B, false)]).length ≤ C
        rw [List.length_append, List.length_singleton]
        omega
      · rcases h2 with h2 | h2 <;> exact PC.noConfusion h2
  | raiseStep rest buf p =>
      have hlt : p.length < C := hs.2 (Or.inl rfl)
      refine ⟨?_, fun h2 => ?_⟩
      · show p.length ≤ C
        omega
      · rcases h2 with h2 | h2 <;> exact PC.noConfusion h2
  | throttleDone inp buf p h =>
      exact ⟨by simp, fun _ => by simpa using hC⟩
  | loopEnd buf p =>
      exact ⟨hs.1, fun _ => hs.2 (Or.inl rfl)⟩
  | finalDispatch b bs p =>
      have hlt : p.length < C := hs.2 (Or.inr rfl)
      refine ⟨?_, fun h2 => ?_⟩
      · show (p ++ [(b :: bs, false)]).length ≤ C
        rw [List.length_append, List.length_singleton]
        omega
      · rcases h2 with h2 | h2 <;> exact PC.noConfusion h2
  | finalEmpty p =>
      refine ⟨hs.1, fun h2 => ?_⟩
      rcases h2 with h2 | h2 <;> exact PC.noConfusion h2
  | drainDone inp buf p h =>
      refine ⟨by simp, fun h2 => ?_⟩
      rcases h2 with h2 | h2 <;> exact PC.noConfusion h2
  | resolveW inp buf p c i hi hw =>
      refine ⟨?_, fun h2 => ?_⟩
      · show (p.set i _).length ≤ C
        rw [List.length_set]
        exact hs.1
      · show (p.set i _).length < C
        rw [List.length_set]
        exact hs.2 h2

theorem inv_reach {α : Type} (B C : ℕ) (hC : 0 < C) (inp0 : List (SElem α)) (s : St α)
    (h : Reach B C (initSt inp0) s) : Inv C s := by
  unfold Reach at h
  induction h with
  | refl => exact ⟨by simp [initSt], fun _ => by simpa [initSt] using hC⟩
  | tail h1 h2 ih => exact inv_step B C hC _ _ h2 ih

/-- C4: in every state reachable during the ingestion of one source, the
number of dispatched-but-unresolved writes registered in `pendingSaves` is
at most `MAX_CONCURRENT_BATCHES`, and any step that dispatches a new write
starts from a state with strictly fewer than `MAX_CONCURRENT_BATCHES`
unresolved writes — a write is never dispatched while the ceiling is
already met. -/
theorem concurrency_ceiling_bounded {α : Type} (inp0 : List (SElem α)) (s : St α)
    (h : Reach BATCH_SIZE MAX_CONCURRENT_BATCHES (initSt inp0) s) :
    unresolvedCount s.pend ≤ MAX_CONCURRENT_BATCHES
    ∧ ∀ s2, Step BATCH_SIZE MAX_CONCURRENT_BATCHES s s2 →
        s.pend.length < s2.pend.length →
        unresolvedCount s.pend < MAX_CONCURRENT_BATCHES := by
  have hC : 0 < MAX_CONCURRENT_BATCHES := by norm_num [MAX_CONCURRENT_BATCHES]
  have hinv := inv_reach BATCH_SIZE MAX_CONCURRENT_BATCHES hC inp0 s h
  refine ⟨le_trans (unresolvedCount_le _) hinv.1, ?_⟩
  intro s2 hstep hgrow
  cases hstep with
  | skipElem rest buf p => exact absurd hgrow (lt_irrefl _)
  | push r rest buf p h2 => exact absurd hgrow (lt_irrefl _)
  | dispatch r rest buf p hb hp =>
      have h1 := unresolvedCount_le p
      show unresolvedCount p < MAX_CONCURRENT_BATCHES
      omega
  | dispatchFull r rest buf p hb hp =>
      have hlt : p.length < MAX_CONCURRENT_BATCHES := hinv.2 (Or.inl rfl)
      have h1 := unresolvedCount_le p
      show unresolvedCount p < MAX_CONCURRENT_BATCHES
      omega
  | raiseStep rest buf p => exact absurd hgrow (lt_irrefl _)
  | throttleDone inp buf p h2 =>
      rw [show (⟨inp, buf, [], PC.consume⟩ : St α).pend = [] from rfl,
        List.length_nil] at hgrow
      omega
  | loopEnd buf p => exact absurd hgrow (lt_irrefl _)
  | finalDispatch b bs p =>
      have hlt : p.length < MAX_CONCURRENT_BATCHES := hinv.2 (Or.inr rfl)
      have h1 := unresolvedCount_le p
      show unresolvedCount p < MAX_CONCURRENT_BATCHES
      omega
  | finalEmpty p => exact absurd hgrow (lt_irrefl _)
  | drainDone inp buf p h2 =>
      rw [show (⟨inp, buf, [], PC.doneOk⟩ : St α).pend = [] from rfl,
        List.length_nil] at hgrow
      omega
  | resolveW inp buf p c i hi hw =>
      rw [show (⟨inp, buf, p.set i ((p.get ⟨i, hi⟩).1, true), c⟩ : St α).pend
          = p.set i ((p.get ⟨i, hi⟩).1, true) from rfl, List.length_set] at hgrow
      exact absurd hgrow (lt_irrefl _)

theorem concurrency_ceiling_bounded_witness :
    unresolvedCount (initSt ([] : List (SElem Unit))).pend ≤ MAX_CONCURRENT_BATCHES :=
  (concurrency_ceiling_bounded [] (initSt []) Relation.ReflTransGen.refl).1

/-- C2 (amended): when the consumer is suspended in the throttle wait, the
only step that lets it proceed is the `Promise.allSettled` return, which
requires every currently registered pending write (all of them, not merely
enough to drop the count below the ceiling) to have resolved, and which
empties the pending list; in particular, with ceiling 3 and 4 full batches
the 4th batch is dispatched only after all of the first 3 writes have
resolved, and no throttle wait follows the 4th submission. -/
theorem throttle_waits_for_all {α : Type} (s s2 : St α)
    (hpc : s.pc = PC.throttling)
    (hstep : Step BATCH_SIZE MAX_CONCURRENT_BATCHES s s2)
    (hout : s2.pc ≠ PC.throttling) :
    (∀ w ∈ s.pend, w.2 = true) ∧ s2.pend = [] ∧ s2.pc = PC.consume
      ∧ s2.inp = s.inp ∧ s2.buf = s.buf := by
  cases hstep with
  | throttleDone inp buf p h => exact ⟨h, rfl, rfl, rfl, rfl⟩
  | resolveW inp buf p c i hi hw => exact absurd hpc hout
  | skipElem rest buf p => exact PC.noConfusion hpc
  | push r rest buf p h => exact PC.noConfusion hpc
  | dispatch r rest buf p hb hp => exact PC.noConfusion hpc
  | dispatchFull r rest buf p hb hp => exact PC.noConfusion hpc
  | raiseStep rest buf p => exact PC.noConfusion hpc
  | loopEnd buf p => exact PC.noConfusion hpc
  | finalDispatch b bs p => exact PC.noConfusion hpc
  | finalEmpty p => exact PC.noConfusion hpc
  | drainDone inp buf p h => exact PC.noConfusion hpc

theorem throttle_waits_for_all_witness :
    (St.mk ([] : List (SElem Unit)) [] [] PC.consume).pend = []
    ∧ (St.mk ([] : List (SElem Unit)) [] [] PC.consume).pc = PC.consume := by
  have h := throttle_waits_for_all
    (⟨[], [], [([()], true)], PC.throttling⟩ : St Unit)
    (⟨[], [], [], PC.consume⟩ : St Unit) rfl
    (@Step.throttleDone Unit BATCH_SIZE MAX_CONCURRENT_BATCHES [] [] [([()], true)]
      (by decide))
    (by decide)
  exact ⟨h.2.1, h.2.2.1⟩

theorem fillBatch {α : Type} (B C : ℕ) (r : α) :
    ∀ (k : ℕ) (buf : List α) (rest : List (SElem α)) (p : List (List α × Bool)),
      buf.length + k = B → 0 < k → p.length + 1 < C →
      Reach B C ⟨List.replicate k (SElem.record r) ++ rest, buf, p, PC.consume⟩
        ⟨rest, [], p ++ [(buf ++ List.replicate k r, false)], PC.consume⟩ := by
  intro k
  induction k with
  | zero => intro buf rest p hsum h0 hp; exact absurd h0 (lt_irrefl 0)
  | succ n ih =>
      intro buf rest p hsum h0 hp
      cases n with
      | zero =>
          have hb : B ≤ buf.length + 1 := by omega
          have hdrop : (buf ++ [r]).drop B = [] := by
            apply List.drop_eq_nil_iff.mpr
            rw [List.length_append, List.length_singleton]
            omega
          have htake : (buf ++ [r]).take B = buf ++ [r] := by
            apply List.take_of_length_le
            rw [List.length_append, List.length_singleton]
            omega
          have hone := @Step.dispatch α B C r rest buf p hb hp
          rw [hdrop, htake] at hone
          have h1 := Relation.ReflTransGen.single hone
          simpa using h1
      | succ m =>
          have hlt : buf.length + 1 < B := by omega
          have hone := @Step.push α B C r
            (List.replicate (m + 1) (SElem.record r) ++ rest) buf p hlt
          have hre : List.replicate (m + 1 + 1) (SElem.record r) ++ rest
              = SElem.record r :: (List.replicate (m + 1) (SElem.record r) ++ rest) := by
            rw [List.replicate_succ, List.cons_append]
          have ihr := ih (buf ++ [r]) rest p
            (by rw [List.length_append, List.length_singleton]; omega)
            (by omega) hp
          have hcat : (buf ++ [r]) ++ List.replicate (m + 1) r
              = buf ++ List.replicate (m + 1 + 1) r := by
            rw [List.append_assoc]
            rfl
          rw [hre]
          refine Relation.ReflTransGen.head hone ?_
          rw [← hcat]
          exact ihr

theorem fillBatchThrottle {α : Type} (B C : ℕ) (r : α) :
    ∀ (k : ℕ) (buf : List α) (rest : List (SElem α)) (p : List (List α × Bool)),
      buf.length + k = B → 0 < k → C ≤ p.length + 1 →
      Reach B C ⟨List.replicate k (SElem.record r) ++ rest, buf, p, PC.consume⟩
        ⟨rest, [], p ++ [(buf ++ List.replicate k r, false)], PC.throttling⟩ := by
  intro k
  induction k with
  | zero => intro buf rest p hsum h0 hp; exact absurd h0 (lt_irrefl 0)
  | succ n ih =>
      intro buf rest p hsum h0 hp
      cases n with
      | zero =>
          have hb : B ≤ buf.length + 1 := by omega
          have hdrop : (buf ++ [r]).drop B = [] := by
            apply List.drop_eq_nil_iff.mpr
            rw [List.length_append, List.length_singleton]
            omega
          have htake : (buf ++ [r]).take B = buf ++ [r] := by
            apply List.take_of_length_le
            rw [List.length_append, List.length_singleton]
            omega
          have hone := @Step.dispatchFull α B C r rest buf p hb hp
          rw [hdrop, htake] at hone
          have h1 := Relation.ReflTransGen.single hone
          simpa using h1
      | succ m =>
          have hlt : buf.length + 1 < B := by omega
          have hone := @Step.push α B C r
            (List.replicate (m + 1) (SElem.record r) ++ rest) buf p hlt
          have hre : List.replicate (m + 1 + 1) (SElem.record r) ++ rest
              = SElem.record r :: (List.replicate (m + 1) (SElem.record r) ++ rest) := by
            rw [List.replicate_succ, List.cons_append]
          have ihr := ih (buf ++ [r]) rest p
            (by rw [List.length_append, List.length_singleton]; omega)
            (by omega) hp
          have hcat : (buf ++ [r]) ++ List.replicate (m + 1) r
              = buf ++ List.replicate (m + 1 + 1) r := by
            rw [List.append_assoc]
            rfl
          rw [hre]
          refine Relation.ReflTransGen.head hone ?_
          rw [← hcat]
          exact ihr

/-- C2 counterexample: with 15000 records (3 full batches of 5000), the run
reaches a state suspended in the throttle wait in which two of the three
registered writes have already resolved — the unresolved count, 1, is below
the ceiling 3 — and yet no step lets the consumer proceed: `flushPending`
(`Promise.allSettled`) waits for all registered writes, not for any subset
bringing the count below the ceiling. -/
theorem throttle_blocked_below_ceiling_cex :
    Reach BATCH_SIZE MAX_CONCURRENT_BATCHES
        (initSt (List.replicate 15000 (SElem.record ())))
        blockedSt
    ∧ unresolvedCount blockedSt.pend < MAX_CONCURRENT_BATCHES
    ∧ blockedSt.pc = PC.throttling
    ∧ ∀ s2, Step BATCH_SIZE MAX_CONCURRENT_BATCHES blockedSt s2 →
        s2.pc = PC.throttling := by
  refine ⟨?_, ?_, rfl, ?_⟩
  · have hB : (0:ℕ) + 5000 = BATCH_SIZE := by norm_num [BATCH_SIZE]
    have h1 : Reach BATCH_SIZE MAX_CONCURRENT_BATCHES
        (initSt (List.replicate 15000 (SElem.record ())))
        ⟨List.replicate 10000 (SElem.record ()), [],
          [(List.replicate 5000 (), false)], PC.consume⟩ := by
      have h := fillBatch BATCH_SIZE MAX_CONCURRENT_BATCHES () 5000 []
        (List.replicate 10000 (SElem.record ())) []
        (by norm_num [BATCH_SIZE]) (by norm_num)
        (by norm_num [MAX_CONCURRENT_BATCHES])
      have hre : List.replicate 15000 (SElem.record ())
          = List.replicate 5000 (SElem.record ())
            ++ List.replicate 10000 (SElem.record ()) := by
        rw [← List.replicate_add]
      rw [initSt, hre]
      exact h
    have h2 : Reach BATCH_SIZE MAX_CONCURRENT_BATCHES
        (⟨List.replicate 10000 (SElem.record ()), [],
          [(List.replicate 5000 (), false)], PC.consume⟩ : St Unit)
        ⟨List.replicate 5000 (SElem.record ()), [],
          [(List.replicate 5000 (), false), (List.replicate 5000 (), false)],
          PC.consume⟩ := by
      have h := fillBatch BATCH_SIZE MAX_CONCURRENT_BATCHES () 5000 []
        (List.replicate 5000 (SElem.record ()))
        [(List.replicate 5000 (), false)]
        (by norm_num [BATCH_SIZE]) (by norm_num)
        (by norm_num [MAX_CONCURRENT_BATCHES])
      have hre : List.replicate 10000 (SElem.record ())
          = List.replicate 5000 (SElem.record ())
            ++ List.replicate 5000 (SElem.record ()) := by
        rw [← List.replicate_add]
      rw [hre]
      exact h
    have h3 : Reach BATCH_SIZE MAX_CONCURRENT_BATCHES
        (⟨List.replicate 5000 (SElem.record ()), [],
          [(List.replicate 5000 (), false), (List.replicate 5000 (), false)],
          PC.consume⟩ : St Unit)
        ⟨[], [],
          [(List.replicate 5000 (), false), (List.replicate 5000 (), false),
            (List.replicate 5000 (), false)], PC.throttling⟩ := by
      have h := fillBatchThrottle BATCH_SIZE MAX_CONCURRENT_BATCHES () 5000 []
        ([] : List (SElem Unit))
        [(List.replicate 5000 (), false), (List.replicate 5000 (), false)]
        (by norm_num [BATCH_SIZE]) (by norm_num)
        (by norm_num [MAX_CONCURRENT_BATCHES])
      have hre : List.replicate 5000 (SElem.record ())
          = List.replicate 5000 (SElem.record ()) ++ ([] : List (SElem Unit)) := by
        rw [List.append_nil]
      rw [hre]
      exact h
    have h4 : Step BATCH_SIZE MAX_CONCURRENT_BATCHES
        (⟨[], [],
          [(List.replicate 5000 (), false), (List.replicate 5000 (), false),
            (List.replicate 5000 (), false)], PC.throttling⟩ : St Unit)
        ⟨[], [],
          [(List.replicate 5000 (), true), (List.replicate 5000 (), false),
            (List.replicate 5000 (), false)], PC.throttling⟩ :=
      @Step.resolveW Unit BATCH_SIZE MAX_CONCURRENT_BATCHES [] []
        [(List.replicate 5000 (), false), (List.replicate 5000 (), false),
          (List.replicate 5000 (), false)] PC.throttling 0
        (by simp only [List.length_cons]; omega) rfl
    have h5 : Step BATCH_SIZE MAX_CONCURRENT_BATCHES
        (⟨[], [],
          [(List.replicate 5000 (), true), (List.replicate 5000 (), false),
            (List.replicate 5000 (), false)], PC.throttling⟩ : St Unit)
        blockedSt :=
      @Step.resolveW Unit BATCH_SIZE MAX_CONCURRENT_BATCHES [] []
        [(List.replicate 5000 (), true), (List.replicate 5000 (), false),
          (List.replicate 5000 (), false)] PC.throttling 1
        (by simp only [List.length_cons]; omega) rfl
    exact Relation.ReflTransGen.tail
      (Relation.ReflTransGen.tail
        (Relation.ReflTransGen.trans h1 (Relation.ReflTransGen.trans h2 h3)) h4) h5
  · show unresolvedCount
        [(List.replicate 5000 (), true), (List.replicate 5000 (), true),
          (List.replicate 5000 (), false)] < MAX_CONCURRENT_BATCHES
    rw [show unresolvedCount
        [(List.replicate 5000 (), true), (List.replicate 5000 (), true),
          (List.replicate 5000 (), false)] = 1 from rfl]
    norm_num [MAX_CONCURRENT_BATCHES]
  · intro s2 hstep
    have hstep2 : Step BATCH_SIZE MAX_CONCURRENT_BATCHES
        (⟨[], [],
          [(List.replicate 5000 (), true), (List.replicate 5000 (), true),
            (List.replicate 5000 (), false)], PC.throttling⟩ : St Unit) s2 := hstep
    cases hstep2 with
    | throttleDone inp buf p h =>
        have h1 := h (List.replicate 5000 (), false)
          (List.mem_cons_of_mem _ (List.mem_cons_of_mem _
            (List.mem_cons_self _ _)))
        exact Bool.noConfusion h1
    | resolveW inp buf p c i hi hw => rfl

/-- C3 (amended): on the normal completion path every dispatched write is
resolved before `ingestSource` finishes — the step that completes a source
requires all registered writes resolved, and a write is only discarded from
`pendingSaves` after every entry has resolved — but this drain is not
guaranteed on the error path (see the counterexample). -/
theorem drain_resolves_all {α : Type} (s s2 : St α)
    (hstep : Step BATCH_SIZE MAX_CONCURRENT_BATCHES s s2) :
    (s2.pc = PC.doneOk → s.pc ≠ PC.doneOk →
      (∀ w ∈ s.pend, w.2 = true) ∧ s2.pend = [])
    ∧ (s2.pend.length < s.pend.length → ∀ w ∈ s.pend, w.2 = true) := by
  cases hstep with
  | drainDone inp buf p h => exact ⟨fun _ _ => ⟨h, rfl⟩, fun _ => h⟩
  | throttleDone inp buf p h => exact ⟨fun h2 _ => PC.noConfusion h2, fun _ => h⟩
  | skipElem rest buf p =>
      exact ⟨fun h2 _ => PC.noConfusion h2, fun h2 => absurd h2 (lt_irrefl _)⟩
  | push r rest buf p h =>
      exact ⟨fun h2 _ => PC.noConfusion h2, fun h2 => absurd h2 (lt_irrefl _)⟩
  | dispatch r rest buf p hb hp =>
      refine ⟨fun h2 _ => PC.noConfusion h2, fun h2 => absurd h2 ?_⟩
      show ¬ (p ++ [((buf ++ [r]).take BATCH_SIZE, false)]).length < p.length
      rw [List.length_append, List.length_singleton]
      omega
  | dispatchFull r rest buf p hb hp =>
      refine ⟨fun h2 _ => PC.noConfusion h2, fun h2 => absurd h2 ?_⟩
      show ¬ (p ++ [((buf ++ [r]).take BATCH_SIZE, false)]).length < p.length
      rw [List.length_append, List.length_singleton]
      omega
  | raiseStep rest buf p =>
      exact ⟨fun h2 _ => PC.noConfusion h2, fun h2 => absurd h2 (lt_irrefl _)⟩
  | loopEnd buf p =>
      exact ⟨fun h2 _ => PC.noConfusion h2, fun h2 => absurd h2 (lt_irrefl _)⟩
  | finalDispatch b bs p =>
      refine ⟨fun h2 _ => PC.noConfusion h2, fun h2 => absurd h2 ?_⟩
      show ¬ (p ++ [(b :: bs, false)]).length < p.length
      rw [List.length_append, List.length_singleton]
      omega
  | finalEmpty p =>
      exact ⟨fun h2 _ => PC.noConfusion h2, fun h2 => absurd h2 (lt_irrefl _)⟩
  | resolveW inp buf p c i hi hw =>
      refine ⟨fun h2 hne => absurd h2 hne, fun h2 => absurd h2 ?_⟩
      show ¬ (p.set i ((p.get ⟨i, hi⟩).1, true)).length < p.length
      rw [List.length_set]
      exact lt_irrefl _

theorem drain_resolves_all_witness :
    (∀ w ∈ (St.mk ([] : List (SElem Unit)) [] [([()], true)] PC.draining).pend,
      w.2 = true)
    ∧ (St.mk ([] : List (SElem Unit)) [] [] PC.doneOk).pend = [] :=
  (drain_resolves_all
    (⟨[], [], [([()], true)], PC.draining⟩ : St Unit)
    (⟨[], [], [], PC.doneOk⟩ : St Unit)
    (@Step.drainDone Unit BATCH_SIZE MAX_CONCURRENT_BATCHES [] [] [([()], true)]
      (by decide))).1 rfl (by decide)

/-- C3 counterexample: a source whose mapper throws right after the first
full batch was dispatched reaches the rejected-source state with that write
still unresolved — `ingestSource` rejects without draining `pendingSaves`
(there is no try/finally around the loop), so the orchestrator proceeds to
the next source with a write outcome unobserved, and no step of the failed
source ever drains it. -/
theorem error_leaves_write_unresolved_cex :
    Reach BATCH_SIZE MAX_CONCURRENT_BATCHES
        (initSt (List.replicate 5000 (SElem.record ()) ++ [SElem.raiseErr]))
        failedSt
    ∧ failedSt.pc = PC.failed
    ∧ (∃ w ∈ failedSt.pend, w.2 = false)
    ∧ ∀ s2, Step BATCH_SIZE MAX_CONCURRENT_BATCHES failedSt s2 →
        s2.pc = PC.failed := by
  refine ⟨?_, rfl, ?_, ?_⟩
  · have h1 := fillBatch BATCH_SIZE MAX_CONCURRENT_BATCHES () 5000 []
      [SElem.raiseErr] [] (by norm_num [BATCH_SIZE]) (by norm_num)
      (by norm_num [MAX_CONCURRENT_BATCHES])
    have h2 : Step BATCH_SIZE MAX_CONCURRENT_BATCHES
        (⟨[SElem.raiseErr], [], [(List.replicate 5000 (), false)],
          PC.consume⟩ : St Unit)
        failedSt :=
      @Step.raiseStep Unit BATCH_SIZE MAX_CONCURRENT_BATCHES [] []
        [(List.replicate 5000 (), false)]
    refine Relation.ReflTransGen.tail ?_ h2
    rw [initSt]
    exact h1
  · exact ⟨(List.replicate 5000 (), false), List.mem_singleton.mpr rfl, rfl⟩
  · intro s2 hstep
    have hstep2 : Step BATCH_SIZE MAX_CONCURRENT_BATCHES
        (⟨[], [], [(List.replicate 5000 (), false)], PC.failed⟩ : St Unit) s2 :=
      hstep
    cases hstep2 with
    | resolveW inp buf p c i hi hw => rfl

end Ingestion
